import Mathlib

/-!
Verification of the NoGo GTP engine (`assignment2/gtp_connection.py`).

The file shallowly embeds the code of `gtp_connection.py`: the notation
codec (`point_to_coord`, `format_point`, `move_to_coord`), the exact solver
(`boolean_negamax_tt` with its transposition table and winning-move trail)
and the `solve` command orchestration (`solve_cmd`, including the SIGALRM
countdown it installs).

The Board abstraction (`board_util.py` / `simple_board.py`) and the
transposition table (`transposition_table.py`) are external collaborators
that are not part of the repository snapshot; they are modelled from the
spec at their interface boundary, as documented on each definition.

Python strings are embedded as `List Char`, Python ints that are provably
non-negative in every reachable call as `Nat`, Python exceptions as an
explicit exceptional result, and the wall-clock countdown as a fuel budget:
running out of fuel models the asynchronous timeout abort.
-/

/-- Modelled from the spec: cell state EMPTY of the external Board
abstraction (`board_util.py`). -/
def EMPTY : Nat := 0

/-- Modelled from the spec: cell state / player colour BLACK. -/
def BLACK : Nat := 1

/-- Modelled from the spec: cell state / player colour WHITE. -/
def WHITE : Nat := 2

/-- Modelled from the spec: cell state BORDER. -/
def BORDER : Nat := 3

/-- Modelled from the spec: `board_util.MAXSIZE`, the supported board-size
ceiling (25); `format_point` asserts `MAXSIZE <= 25`. -/
def MAXSIZE : Nat := 25

/-- Modelled from the spec: `GoBoardUtil.opponent(color) = WHITE + BLACK - color`. -/
def opponent (color : Nat) : Nat := WHITE + BLACK - color

/-- ASCII lower-casing of one character; the Python `str.lower()` calls in
this program only ever see ASCII letters and digits. -/
def asciiLowerChar (c : Char) : Char :=
  if 'A' ≤ c ∧ c ≤ 'Z' then Char.ofNat (c.toNat + 32) else c

/-- `s.lower()` on the ASCII strings handled by the program. -/
def asciiLower (s : List Char) : List Char := s.map asciiLowerChar

/-- Value of one decimal digit character, `none` for a non-digit. -/
def digitVal (c : Char) : Option Nat :=
  if '0' ≤ c ∧ c ≤ '9' then some (c.toNat - '0'.toNat) else none

/-- Decimal value of a non-empty all-digit string, `none` otherwise. -/
def digitsVal (cs : List Char) : Option Nat :=
  if cs.isEmpty then none
  else cs.foldl (fun acc c => acc.bind (fun a => (digitVal c).map (fun d => a * 10 + d))) (some 0)

/-- Python `int(s)` restricted to the inputs that matter in
`move_to_coord`: an optional `+` sign followed by decimal digits. Forms
that Python parses to a negative (or un-parsable) value are conflated with
`none`; both raise `ValueError` inside `move_to_coord`, either directly or
through its `row < 1` check, so the conflation is observationally inert. -/
def pyIntNonneg (cs : List Char) : Option Nat :=
  match cs with
  | '+' :: rest => digitsVal rest
  | _ => digitsVal cs

/-- The column alphabet of `format_point`, with `I` skipped. -/
def columnLetters : List Char :=
  ['A','B','C','D','E','F','G','H','J','K','L','M','N','O','P','Q','R','S','T','U','V','W','X','Y','Z']

/-- Python list indexing `l[i]`, which resolves negative indices from the
end and raises `IndexError` (here `none`) when out of range. -/
def pyNth (l : List Char) (i : Int) : Option Char :=
  if 0 ≤ i then l.get? i.toNat
  else if (-i).toNat ≤ l.length then l.get? (l.length - (-i).toNat) else none

/-- A parsed coordinate: either the PASS sentinel or a `(row, col)` pair.
Rows and columns are `Nat` because every value flowing through
`point_to_coord` / `format_point` / `move_to_coord` is non-negative. -/
inductive PointCoord where
  | pass
  | rc (row : Nat) (col : Nat)
deriving Repr, DecidableEq

/-- `point_to_coord(point, boardsize) = divmod(point, boardsize + 1)`.
The `point == PASS` identity branch is not modelled: the PASS sentinel is
`None`, never an integer point, and every caller passes an integer. -/
def point_to_coord (point : Nat) (boardsize : Nat) : PointCoord :=
  .rc (point / (boardsize + 1)) (point % (boardsize + 1))

/-- `format_point(move)`: `"PASS"` for the PASS sentinel, otherwise the
column letter (`I` skipped, with Python's negative indexing for `col = 0`)
followed by the decimal row number; `none` models the `ValueError` raised
when `row` or `col` falls outside `[0, MAXSIZE)`.  The Python guard
`0 <= row` / `0 <= col` is vacuous over `Nat`. -/
def format_point : PointCoord → Option (List Char)
  | .pass => some ['P','A','S','S']
  | .rc row col =>
    if row < MAXSIZE ∧ col < MAXSIZE then
      (pyNth columnLetters ((col : Int) - 1)).map (fun ch => ch :: Nat.toDigits 10 row)
    else none

/-- Body of `move_to_coord` after the `s = point_str.lower()` step: runs on
the already lower-cased string. `none` models every `ValueError` path
(bad letter, bad number, `row < 1`, off-board). -/
def move_to_coord_lc (s : List Char) (board_size : Nat) : Option PointCoord :=
  if s = ['p','a','s','s'] then some PointCoord.pass
  else
    match s with
    | [] => none
    | col_c :: rest =>
      if ('a' ≤ col_c ∧ col_c ≤ 'z') ∧ col_c ≠ 'i' then
        let col0 := col_c.toNat - 'a'.toNat
        let col := if col_c < 'i' then col0 + 1 else col0
        match pyIntNonneg rest with
        | none => none
        | some row =>
          if row < 1 then none
          else if col ≤ board_size ∧ row ≤ board_size then some (PointCoord.rc row col)
          else none
      else none

/-- `move_to_coord(point_str, board_size)`: rejects board sizes outside
`[2, MAXSIZE]`, lower-cases the input and parses it. -/
def move_to_coord (point_str : List Char) (board_size : Nat) : Option PointCoord :=
  if 2 ≤ board_size ∧ board_size ≤ MAXSIZE then
    move_to_coord_lc (asciiLower point_str) board_size
  else none

/-- Modelled from the spec: the external Board's mutable state consumed by
the solver — grid contents (a flat list of cell states), side to move, and
the `last_move` / `last2_move` fields the solver snapshots and restores.
`size` is the board dimension used by the notation codec. -/
structure Board where
  size : Nat
  cells : List Nat
  current_player : Nat
  last_move : Option Nat
  last2_move : Option Nat
deriving Repr, DecidableEq

/-- Modelled from the spec: the interface the solver consumes from the
external Board abstraction — a legality test (`is_legal`, also the filter
behind `generate_legal_moves`) and a deterministic position hash of board
contents plus side to move.  `legal_empty` is the interface guarantee that
a legal move plays a (present) EMPTY point with a real colour; the game's
capture/suicide rules are otherwise left abstract, as the spec re-specifies
the Board only at this boundary. -/
structure BoardSpec where
  isLegal : Board → Nat → Nat → Bool
  hashCode : Board → Nat
  legal_empty : ∀ b m c, isLegal b m c = true → b.cells.get? m = some EMPTY ∧ c ≠ EMPTY

/-- Modelled from the spec: `board.play_move(move, color)` places the stone
when the move is legal (updating `last2_move`, `last_move` and the side to
move) and reports success; an illegal move leaves the board untouched and
reports failure. -/
def playMove (S : BoardSpec) (b : Board) (move : Nat) (color : Nat) : Bool × Board :=
  if S.isLegal b move color then
    (true, { b with cells := b.cells.set move color,
                    last2_move := b.last_move,
                    last_move := some move,
                    current_player := opponent color })
  else (false, b)

/-- Modelled from the spec: `board.set_point(move, value)` writes one cell. -/
def setPoint (b : Board) (move : Nat) (value : Nat) : Board :=
  { b with cells := b.cells.set move value }

/-- The solver's undo sequence (`gtp_connection.py` lines 424-427): clear
the played point and restore the three snapshotted fields. -/
def undoMove (b : Board) (move : Nat) (last_move last2_move : Option Nat) (current_player : Nat) :
    Board :=
  { setPoint b move EMPTY with
      last_move := last_move, last2_move := last2_move, current_player := current_player }

/-- Modelled from the spec: `GoBoardUtil.generate_legal_moves(board, color)`
enumerates the legal points for `color` in the Board's fixed order (here:
increasing point index). -/
def generate_legal_moves (S : BoardSpec) (b : Board) (color : Nat) : List Nat :=
  (List.range b.cells.length).filter (fun m => S.isLegal b m color)

/-- Modelled from the spec: the transposition table of
`transposition_table.py` — hash → boolean, `store` overwriting (the newest
entry shadows older ones on lookup), created empty per solve. -/
abbrev TT := List (Nat × Bool)

/-- Modelled from the spec: `tt.lookup(code)` — the cached boolean, or
`none` when absent. -/
def TT.lookup (tt : TT) (code : Nat) : Option Bool :=
  match tt.find? (fun e => e.fst == code) with
  | some e => some e.snd
  | none => none

/-- Modelled from the spec: `tt.store(code, result)`. -/
def TT.store (tt : TT) (code : Nat) (result : Bool) : TT :=
  (code, result) :: tt

/-- The record produced by one normal return of `boolean_negamax_tt`: the
boolean answer plus the post-call state of the three objects the Python
function mutates in place (board, winning-move trail, transposition
table). -/
structure SearchOut where
  result : Bool
  board : Board
  trail : List (List Char)
  table : TT
deriving Repr, DecidableEq

/-- Outcome of one `boolean_negamax_tt` call: a normal return, or a Python
exception propagating out of the frame (`exn`, raised when `format_point`
rejects the proving move's coordinates).  The SIGALRM timeout abort is
modelled separately, as fuel exhaustion (`none` at the `Option` layer). -/
inductive SearchRes where
  | out : SearchOut → SearchRes
  | exn : SearchRes
deriving Repr, DecidableEq

/-- The tail of the solver's winning branch (`gtp_connection.py` lines
430-433), run after the undo with `b` the pre-move board whose fields were
snapshotted and `o` the refuting child's output: format the move (an
out-of-range coordinate raises, modelled `exn`), append its lower-cased
text to the trail, and store True for the restored position. -/
def winReturn (S : BoardSpec) (move : Nat) (b : Board) (o : SearchOut) : Option SearchRes :=
  match format_point (point_to_coord move
      (undoMove o.board move b.last_move b.last2_move b.current_player).size) with
  | none => some SearchRes.exn
  | some s =>
    some (SearchRes.out
      { result := true,
        board := undoMove o.board move b.last_move b.last2_move b.current_player,
        trail := o.trail ++ [asciiLower s],
        table := TT.store o.table
          (S.hashCode (undoMove o.board move b.last_move b.last2_move b.current_player)) true })

/-- The `for move in legal_moves` loop of `boolean_negamax_tt` (lines
411-434), with `rec` the recursive call one level down: snapshot the three
mutable fields, play the move (skipping it if the Board rejects it),
recurse, undo, and either return True at the first refuted child
(`winReturn`) or fall through to storing False.  Exceptions and fuel
exhaustion inside `rec` propagate without undoing, as in Python. -/
def negamaxStep (S : BoardSpec) (rec : Board → List (List Char) → TT → Option SearchRes) :
    Board → List (List Char) → TT → List Nat → Option SearchRes
  | b, wm, tt, [] =>
    some (SearchRes.out { result := false, board := b, trail := wm,
                          table := TT.store tt (S.hashCode b) false })
  | b, wm, tt, move :: rest =>
    if (playMove S b move b.current_player).fst then
      match rec (playMove S b move b.current_player).snd wm tt with
      | none => none
      | some SearchRes.exn => some SearchRes.exn
      | some (SearchRes.out o) =>
        if o.result then
          negamaxStep S rec (undoMove o.board move b.last_move b.last2_move b.current_player)
            o.trail o.table rest
        else
          winReturn S move b o
    else
      negamaxStep S rec b wm tt rest

/-- `boolean_negamax_tt` (lines 394-434), with an explicit fuel budget
modelling the wall-clock allowance: `none` means the SIGALRM abort fired
before this frame could finish.  Order of the Python function preserved:
transposition-table lookup, the two terminal checks (side to move out of
moves → store False; opponent out of moves → store True), then the move
loop. -/
def boolean_negamax_tt (S : BoardSpec) : Nat → Board → List (List Char) → TT → Option SearchRes
  | 0, _, _, _ => none
  | fuel + 1, b, wm, tt =>
    match TT.lookup tt (S.hashCode b) with
    | some result => some (SearchRes.out { result := result, board := b, trail := wm, table := tt })
    | none =>
      if (generate_legal_moves S b b.current_player).isEmpty then
        some (SearchRes.out { result := false, board := b, trail := wm,
                              table := TT.store tt (S.hashCode b) false })
      else if (generate_legal_moves S b (opponent b.current_player)).isEmpty then
        some (SearchRes.out { result := true, board := b, trail := wm,
                              table := TT.store tt (S.hashCode b) true })
      else
        negamaxStep S (boolean_negamax_tt S fuel) b wm tt
          (generate_legal_moves S b b.current_player)

/-- The boolean answer of a search outcome, when it returned normally. -/
def resultOf : Option SearchRes → Option Bool
  | some (SearchRes.out o) => some o.result
  | _ => none

/-- The post-call board of a search outcome, when it returned normally. -/
def boardOf : Option SearchRes → Option Board
  | some (SearchRes.out o) => some o.board
  | _ => none

/-- The post-call winning-move trail, when the search returned normally. -/
def trailOf : Option SearchRes → Option (List (List Char))
  | some (SearchRes.out o) => some o.trail
  | _ => none

/-- The last trail element (what `winning_moves.pop()` would pop), when the
search returned normally. -/
def lastTrailOf : Option SearchRes → Option (List Char)
  | some (SearchRes.out o) => o.trail.getLast?
  | _ => none

/-- Replay of the move loop over a prefix of the candidate list in which
every playable candidate is refuted (its recursive call returns True):
yields the board/trail/table state the loop threads past that prefix, or
`none` if some candidate is not refuted or does not return normally. -/
def refutedUpTo (S : BoardSpec) (fuel : Nat) :
    Board → List (List Char) → TT → List Nat → Option (Board × List (List Char) × TT)
  | b, wm, tt, [] => some (b, wm, tt)
  | b, wm, tt, move :: rest =>
    if (playMove S b move b.current_player).fst then
      match boolean_negamax_tt S fuel (playMove S b move b.current_player).snd wm tt with
      | some (SearchRes.out o) =>
        if o.result then
          refutedUpTo S fuel (undoMove o.board move b.last_move b.last2_move b.current_player)
            o.trail o.table rest
        else none
      | _ => none
    else refutedUpTo S fuel b wm tt rest

/-- `provesAt S fuel b wm tt ms i` holds when, after the loop refutes the
candidates before position `i`, the candidate at position `i` is playable
and its recursive call (at the state the loop threads to it) returns
False — i.e. move `i` is the loop's proving move. -/
def provesAt (S : BoardSpec) (fuel : Nat) (b : Board) (wm : List (List Char)) (tt : TT)
    (ms : List Nat) (i : Nat) : Bool :=
  match refutedUpTo S fuel b wm tt (ms.take i), ms.get? i with
  | some (bi, wmi, tti), some m =>
    (playMove S bi m bi.current_player).fst &&
      (resultOf (boolean_negamax_tt S fuel (playMove S bi m bi.current_player).snd wmi tti)
        == some false)
  | _, _ => false

/-- Number of EMPTY points on the board; the solver's recursion measure. -/
def emptyPoints (b : Board) : Nat := b.cells.count EMPTY

/-- The slice of `GtpConnection` state that `solve_cmd` touches: the live
board, the configured time limit, and the pending-SIGALRM register
(`signal.alarm`): `some n` means a countdown of `n` seconds is scheduled,
`none` that no alarm is pending. -/
structure GtpState where
  board : Board
  timelimit : Nat
  alarm : Option Nat
deriving Repr, DecidableEq

/-- The literal `[None, "b", "w"]` of `solve_cmd`; indexing it with
anything but 1 or 2 yields a value on which the response concatenation
raises, modelled as `none`. -/
def int_to_color : List (Option (List Char)) :=
  [none, some ['b'], some ['w']]

/-- The argument string `"genmove"`. -/
def genmoveChars : List Char := ['g','e','n','m','o','v','e']

/-- The response token `"unknown"`. -/
def unknownChars : List Char := ['u','n','k','n','o','w','n']

/-- `len(args) == 0 or args[0] != "genmove"`: whether `solve_cmd` writes a
protocol response (it stays silent when called from `genmove`). -/
def wantsRespond (args : List (List Char)) : Bool :=
  match args with
  | [] => true
  | a :: _ => !(a == genmoveChars)

/-- `solve_cmd` (lines 361-388).  The result is `none` when an uncaught
exception escapes the method (the `assert` on the trail, or a bad colour
index); otherwise `some (state, response, value)` with the post-call
connection state, the protocol response if one is written, and the
method's Python return value.  The search runs on `st.board` passed by
value (`self.board.copy()`); its mutated copy is discarded.  Entering the
method arms the countdown (`signal.alarm(self.timelimit)`); no path
disarms it — the register is only cleared on the timeout path, where the
signal has been consumed by firing.  Fuel exhaustion of the search models
that fired SIGALRM, whose handler's exception the bare `except` turns into
the `"unknown"` response. -/
def solve_cmd (S : BoardSpec) (fuel : Nat) (st : GtpState) (args : List (List Char)) :
    Option (GtpState × Option (List Char) × Option (List Char)) :=
  match boolean_negamax_tt S fuel st.board [] [] with
  | none =>
    some ({ st with alarm := none },
          if wantsRespond args then some unknownChars else none, none)
  | some SearchRes.exn =>
    some ({ st with alarm := some st.timelimit },
          if wantsRespond args then some unknownChars else none, none)
  | some (SearchRes.out o) =>
    if o.result then
      match o.trail.getLast? with
      | none => none
      | some mv =>
        match int_to_color.getD st.board.current_player none with
        | none => none
        | some color =>
          some ({ st with alarm := some st.timelimit },
                if wantsRespond args then some (color ++ [' '] ++ mv) else none, some mv)
    else
      match int_to_color.getD (opponent st.board.current_player) none with
      | none => none
      | some oc =>
        some ({ st with alarm := some st.timelimit },
              if wantsRespond args then some oc else none, none)

/-- The alarm register of a `solve_cmd` outcome, when no exception escaped. -/
def stateAlarmOf : Option (GtpState × Option (List Char) × Option (List Char)) →
    Option (Option Nat)
  | some (st, _, _) => some st.alarm
  | none => none

/-- A Board instance for concrete runs: any present EMPTY point is legal
for either real colour (a position with no capture/suicide tension). -/
def simpleLegal (b : Board) (m c : Nat) : Bool :=
  (b.cells.get? m == some EMPTY) && (c == BLACK || c == WHITE)

/-- A deterministic position hash: board contents and side to move packed
base-4 (cell states are 0..3), injective on the boards of one game. -/
def simpleHash (b : Board) : Nat :=
  (b.cells.foldl (fun a x => a * 4 + x) 1) * 4 + b.current_player

/-- The capture/suicide-free Board instance used for concrete runs. -/
def simpleSpec : BoardSpec :=
  { isLegal := simpleLegal, hashCode := simpleHash,
    legal_empty := by
      intro b m c h
      simp only [simpleLegal, Bool.and_eq_true, Bool.or_eq_true, beq_iff_eq] at h
      refine ⟨h.1, ?_⟩
      rcases h.2 with h2 | h2 <;> simp [h2, BLACK, WHITE, EMPTY] }

/-- A Board instance on which only BLACK ever has legal moves (as when all
remaining points are suicide for WHITE): exhibits the solver's degenerate
opponent-out-of-moves terminal. -/
def degenLegal (b : Board) (m c : Nat) : Bool :=
  (b.cells.get? m == some EMPTY) && (c == BLACK)

/-- Board instance exhibiting the degenerate terminal. -/
def degenSpec : BoardSpec :=
  { isLegal := degenLegal, hashCode := simpleHash,
    legal_empty := by
      intro b m c h
      simp only [degenLegal, Bool.and_eq_true, beq_iff_eq] at h
      exact ⟨h.1, by simp [h.2, BLACK, EMPTY]⟩ }

/-- A Board instance on which WHITE's moves become legal only once a BLACK
stone is present (placements can re-open opponent options, as NoGo's
capture-illegality can): on it the degenerate terminal fires although no
move of the side to move refutes the opponent. -/
def cexLegal (b : Board) (m c : Nat) : Bool :=
  (b.cells.get? m == some EMPTY) &&
    (if c == BLACK then true else if c == WHITE then b.cells.contains BLACK else false)

/-- Board instance exhibiting a degenerate terminal that no explored move
could justify. -/
def cexSpec : BoardSpec :=
  { isLegal := cexLegal, hashCode := simpleHash,
    legal_empty := by
      intro b m c h
      have h' := h
      simp only [cexLegal, Bool.and_eq_true, beq_iff_eq] at h'
      refine ⟨h'.1, ?_⟩
      intro hc
      subst hc
      revert h
      simp [cexLegal, BLACK, WHITE, EMPTY] }

/-- 2-point position with BLACK to move; a loss for the mover under
`simpleSpec` (whoever moves second fills the last point). -/
def bLoss : Board := { size := 1, cells := [EMPTY, EMPTY], current_player := BLACK,
                       last_move := none, last2_move := none }

/-- 1-point position with BLACK to move; an immediate win under
`simpleSpec` (the single reply leaves WHITE without moves). -/
def bWin : Board := { size := 1, cells := [EMPTY], current_player := BLACK,
                      last_move := none, last2_move := none }

/-- 1-point position with BLACK to move under `degenSpec`: BLACK has a
move, WHITE has none already, so the degenerate terminal fires. -/
def bDegen : Board := { size := 1, cells := [EMPTY], current_player := BLACK,
                        last_move := none, last2_move := none }

/-- 2-point position with BLACK to move under `cexSpec`: WHITE has no move
now (degenerate win for BLACK), yet after either BLACK move WHITE gains a
move and wins. -/
def bCex : Board := { size := 1, cells := [EMPTY, EMPTY], current_player := BLACK,
                      last_move := none, last2_move := none }

/-- Position with no points at all: the side to move has no legal move. -/
def bNoMoves : Board := { size := 1, cells := [], current_player := WHITE,
                          last_move := none, last2_move := none }

/-- Position whose only winning move sits at row 25 of a size-1 point
numbering, so `format_point` raises on the proving move. -/
def bExn : Board := { size := 1, cells := List.replicate 50 BORDER ++ [EMPTY],
                      current_player := BLACK, last_move := none, last2_move := none }

/-- Connection state around `bLoss`. -/
def stLoss : GtpState := { board := bLoss, timelimit := 5, alarm := none }

/-- Connection state around `bDegen`. -/
def stDegen : GtpState := { board := bDegen, timelimit := 1, alarm := none }

/-- Connection state around `bExn`. -/
def stExn : GtpState := { board := bExn, timelimit := 1, alarm := none }

/-! ## List helpers for the undo discipline and the recursion measure -/

theorem list_set_set (l : List Nat) (m a c : Nat) : (l.set m a).set m c = l.set m c := by
  induction l generalizing m with
  | nil => rfl
  | cons hd tl ih =>
    cases m with
    | zero => rfl
    | succ m => simp [List.set, ih]

theorem list_set_of_get (l : List Nat) (m a : Nat) (h : l.get? m = some a) : l.set m a = l := by
  induction l generalizing m with
  | nil => cases h
  | cons hd tl ih =>
    cases m with
    | zero =>
      simp only [List.get?] at h
      have : hd = a := Option.some.inj h
      simp [List.set, this]
    | succ m =>
      simp only [List.get?] at h
      simp only [List.set]
      rw [ih m h]

theorem list_count_set (l : List Nat) (m c : Nat) (h : l.get? m = some EMPTY)
    (hc : c ≠ EMPTY) : (l.set m c).count EMPTY + 1 = l.count EMPTY := by
  induction l generalizing m with
  | nil => cases h
  | cons hd tl ih =>
    cases m with
    | zero =>
      simp only [List.get?] at h
      have : hd = EMPTY := Option.some.inj h
      simp [List.set, List.count_cons, this, hc, Ne.symm hc]
    | succ m =>
      simp only [List.get?] at h
      simp only [List.set, List.count_cons]
      have := ih m h
      by_cases hd0 : hd = EMPTY <;> simp [hd0] <;> omega

/-! ## `playMove` and the undo discipline -/

theorem playMove_fst (S : BoardSpec) (b : Board) (m c : Nat) :
    (playMove S b m c).fst = S.isLegal b m c := by
  by_cases h : S.isLegal b m c = true <;> simp [playMove, h]

theorem playMove_snd_of_legal (S : BoardSpec) (b : Board) (m c : Nat)
    (h : S.isLegal b m c = true) :
    (playMove S b m c).snd =
      { b with cells := b.cells.set m c, last2_move := b.last_move,
               last_move := some m, current_player := opponent c } := by
  simp [playMove, h]

theorem playMove_snd_of_illegal (S : BoardSpec) (b : Board) (m c : Nat)
    (h : ¬ S.isLegal b m c = true) : (playMove S b m c).snd = b := by
  simp [playMove, h]

/-- The four undo statements invert a successful `play_move` exactly. -/
theorem undo_play (S : BoardSpec) (b : Board) (m c : Nat) (h : S.isLegal b m c = true) :
    undoMove (playMove S b m c).snd m b.last_move b.last2_move b.current_player = b := by
  obtain ⟨hget, _⟩ := S.legal_empty b m c h
  cases b with
  | mk size cells current_player last_move last2_move =>
    simp only [playMove, h, if_pos, undoMove, setPoint]
    simp only [Board.mk.injEq, and_true, true_and]
    rw [list_set_set]
    exact list_set_of_get cells m EMPTY hget

/-- Playing a legal move fills an EMPTY point: one fewer empty point. -/
theorem emptyPoints_play (S : BoardSpec) (b : Board) (m c : Nat) (h : S.isLegal b m c = true) :
    emptyPoints (playMove S b m c).snd + 1 = emptyPoints b := by
  obtain ⟨hget, hc⟩ := S.legal_empty b m c h
  simp only [playMove, h, if_pos, emptyPoints]
  exact list_count_set b.cells m c hget hc

/-! ## Restoration: every normal return hands the board back unchanged -/

theorem step_restores (S : BoardSpec) (f : Nat)
    (IH : ∀ b wm tt o, boolean_negamax_tt S f b wm tt = some (SearchRes.out o) → o.board = b) :
    ∀ ms b wm tt o,
      negamaxStep S (boolean_negamax_tt S f) b wm tt ms = some (SearchRes.out o) → o.board = b := by
  intro ms
  induction ms with
  | nil =>
    intro b wm tt o h
    simp only [negamaxStep] at h
    cases h
    rfl
  | cons m rest ih =>
    intro b wm tt o h
    simp only [negamaxStep] at h
    by_cases hpm : (playMove S b m b.current_player).fst = true
    · rw [if_pos hpm] at h
      have hleg : S.isLegal b m b.current_player = true := by
        rw [← playMove_fst]; exact hpm
      cases hr : boolean_negamax_tt S f (playMove S b m b.current_player).snd wm tt with
      | none => simp only [hr] at h; cases h
      | some r =>
        cases r with
        | exn => simp only [hr] at h; cases h
        | out o1 =>
          simp only [hr] at h
          have hb1 : o1.board = (playMove S b m b.current_player).snd := IH _ _ _ _ hr
          by_cases hres : o1.result = true
          · rw [if_pos hres] at h
            have := ih _ _ _ _ h
            rw [this, hb1, undo_play S b m b.current_player hleg]
          · rw [if_neg hres] at h
            simp only [winReturn] at h
            cases hf : format_point (point_to_coord m
                (undoMove o1.board m b.last_move b.last2_move b.current_player).size) with
            | none => rw [hf] at h; cases h
            | some s =>
              rw [hf] at h
              cases h
              simp only
              rw [hb1, undo_play S b m b.current_player hleg]
    · rw [if_neg hpm] at h
      exact ih _ _ _ _ h

theorem bnt_restores (S : BoardSpec) :
    ∀ fuel b wm tt o,
      boolean_negamax_tt S fuel b wm tt = some (SearchRes.out o) → o.board = b := by
  intro fuel
  induction fuel with
  | zero => intro b wm tt o h; cases h
  | succ f IH =>
    intro b wm tt o h
    simp only [boolean_negamax_tt] at h
    cases hl : TT.lookup tt (S.hashCode b) with
    | some r => rw [hl] at h; cases h; rfl
    | none =>
      rw [hl] at h
      by_cases h1 : (generate_legal_moves S b b.current_player).isEmpty = true
      · rw [if_pos h1] at h; cases h; rfl
      · rw [if_neg h1] at h
        by_cases h2 : (generate_legal_moves S b (opponent b.current_player)).isEmpty = true
        · rw [if_pos h2] at h; cases h; rfl
        · rw [if_neg h2] at h
          exact step_restores S f IH _ _ _ _ _ h

/-! ## Totality: depth bounded by the number of empty points -/

theorem step_total (S : BoardSpec) (f : Nat)
    (IH : ∀ b wm tt, emptyPoints b < f → (boolean_negamax_tt S f b wm tt).isSome = true) :
    ∀ ms b wm tt, emptyPoints b < f + 1 →
      (negamaxStep S (boolean_negamax_tt S f) b wm tt ms).isSome = true := by
  intro ms
  induction ms with
  | nil => intro b wm tt _; simp [negamaxStep]
  | cons m rest ih =>
    intro b wm tt he
    simp only [negamaxStep]
    by_cases hpm : (playMove S b m b.current_player).fst = true
    · rw [if_pos hpm]
      have hleg : S.isLegal b m b.current_player = true := by
        rw [← playMove_fst]; exact hpm
      have hdec := emptyPoints_play S b m b.current_player hleg
      have hlt : emptyPoints (playMove S b m b.current_player).snd < f := by omega
      cases hr : boolean_negamax_tt S f (playMove S b m b.current_player).snd wm tt with
      | none =>
        have := IH _ wm tt hlt
        rw [hr] at this
        cases this
      | some r =>
        cases r with
        | exn => simp
        | out o1 =>
          have hb1 : o1.board = (playMove S b m b.current_player).snd :=
            bnt_restores S f _ _ _ _ hr
          have hundo : undoMove o1.board m b.last_move b.last2_move b.current_player = b := by
            rw [hb1]; exact undo_play S b m b.current_player hleg
          by_cases hres : o1.result = true
          · simp only [hres, if_true, hundo]
            exact ih b o1.trail o1.table he
          · simp only [hres, if_false, winReturn]
            cases format_point (point_to_coord m
                (undoMove o1.board m b.last_move b.last2_move b.current_player).size) <;> simp
    · rw [if_neg hpm]
      exact ih b wm tt he

theorem bnt_total (S : BoardSpec) :
    ∀ fuel b wm tt, emptyPoints b < fuel →
      (boolean_negamax_tt S fuel b wm tt).isSome = true := by
  intro fuel
  induction fuel with
  | zero => intro b wm tt h; cases h
  | succ f IH =>
    intro b wm tt he
    simp only [boolean_negamax_tt]
    cases TT.lookup tt (S.hashCode b) with
    | some r => simp
    | none =>
      by_cases h1 : (generate_legal_moves S b b.current_player).isEmpty = true
      · simp [h1]
      · rw [if_neg h1]
        by_cases h2 : (generate_legal_moves S b (opponent b.current_player)).isEmpty = true
        · simp [h2]
        · rw [if_neg h2]
          exact step_total S f IH _ b wm tt he

/-! ## Unfolding the four return points of `boolean_negamax_tt` -/

theorem isEmpty_false_of_ne (l : List Nat) (h : l ≠ []) : l.isEmpty = false := by
  cases l with
  | nil => exact absurd rfl h
  | cons a t => rfl

theorem bnt_succ_hit (S : BoardSpec) (fuel : Nat) (b : Board) (wm : List (List Char)) (tt : TT)
    (r : Bool) (h : TT.lookup tt (S.hashCode b) = some r) :
    boolean_negamax_tt S (fuel + 1) b wm tt =
      some (SearchRes.out { result := r, board := b, trail := wm, table := tt }) := by
  simp [boolean_negamax_tt, h]

theorem bnt_succ_loss (S : BoardSpec) (fuel : Nat) (b : Board) (wm : List (List Char)) (tt : TT)
    (hmiss : TT.lookup tt (S.hashCode b) = none)
    (h1 : generate_legal_moves S b b.current_player = []) :
    boolean_negamax_tt S (fuel + 1) b wm tt =
      some (SearchRes.out { result := false, board := b, trail := wm,
                            table := TT.store tt (S.hashCode b) false }) := by
  simp [boolean_negamax_tt, hmiss, h1]

theorem bnt_succ_win (S : BoardSpec) (fuel : Nat) (b : Board) (wm : List (List Char)) (tt : TT)
    (hmiss : TT.lookup tt (S.hashCode b) = none)
    (h1 : generate_legal_moves S b b.current_player ≠ [])
    (h2 : generate_legal_moves S b (opponent b.current_player) = []) :
    boolean_negamax_tt S (fuel + 1) b wm tt =
      some (SearchRes.out { result := true, board := b, trail := wm,
                            table := TT.store tt (S.hashCode b) true }) := by
  simp [boolean_negamax_tt, hmiss, isEmpty_false_of_ne _ h1, h2]

theorem bnt_succ_loop (S : BoardSpec) (fuel : Nat) (b : Board) (wm : List (List Char)) (tt : TT)
    (hmiss : TT.lookup tt (S.hashCode b) = none)
    (h1 : generate_legal_moves S b b.current_player ≠ [])
    (h2 : generate_legal_moves S b (opponent b.current_player) ≠ []) :
    boolean_negamax_tt S (fuel + 1) b wm tt =
      negamaxStep S (boolean_negamax_tt S fuel) b wm tt
        (generate_legal_moves S b b.current_player) := by
  simp [boolean_negamax_tt, hmiss, isEmpty_false_of_ne _ h1, isEmpty_false_of_ne _ h2]

/-! ## The move loop against its refuted-prefix replay -/

theorem refutedUpTo_append (S : BoardSpec) (fuel : Nat) :
    ∀ l1 l2 b wm tt,
      refutedUpTo S fuel b wm tt (l1 ++ l2) =
        (refutedUpTo S fuel b wm tt l1).bind
          (fun x => refutedUpTo S fuel x.1 x.2.1 x.2.2 l2) := by
  intro l1
  induction l1 with
  | nil => intro l2 b wm tt; simp [refutedUpTo]
  | cons m rest ih =>
    intro l2 b wm tt
    simp only [List.cons_append, refutedUpTo]
    by_cases hpm : (playMove S b m b.current_player).fst = true
    · rw [if_pos hpm, if_pos hpm]
      cases hr : boolean_negamax_tt S fuel (playMove S b m b.current_player).snd wm tt with
      | none => simp
      | some r =>
        cases r with
        | exn => simp
        | out o1 =>
          by_cases hres : o1.result = true
          · simp only [hres, if_true]
            exact ih l2 _ _ _
          · simp only [hres, if_false]
            simp
    · rw [if_neg hpm, if_neg hpm]
      exact ih l2 b wm tt

/-- If the loop's replay refutes every candidate of `ms`, the loop falls
through and stores False at the threaded final board. -/
theorem step_of_refutedAll (S : BoardSpec) (fuel : Nat) :
    ∀ ms b wm tt bf wmf ttf,
      refutedUpTo S fuel b wm tt ms = some (bf, wmf, ttf) →
      negamaxStep S (boolean_negamax_tt S fuel) b wm tt ms =
        some (SearchRes.out { result := false, board := bf, trail := wmf,
                              table := TT.store ttf (S.hashCode bf) false }) := by
  intro ms
  induction ms with
  | nil =>
    intro b wm tt bf wmf ttf h
    simp only [refutedUpTo] at h
    cases h
    simp [negamaxStep]
  | cons m rest ih =>
    intro b wm tt bf wmf ttf h
    simp only [refutedUpTo] at h
    simp only [negamaxStep]
    by_cases hpm : (playMove S b m b.current_player).fst = true
    · rw [if_pos hpm] at h
      rw [if_pos hpm]
      cases hr : boolean_negamax_tt S fuel (playMove S b m b.current_player).snd wm tt with
      | none => rw [hr] at h; cases h
      | some r =>
        cases r with
        | exn => rw [hr] at h; cases h
        | out o1 =>
          rw [hr] at h
          simp only at h
          by_cases hres : o1.result = true
          · rw [if_pos hres] at h
            simp only [hres, if_true]
            exact ih _ _ _ _ _ _ h
          · rw [if_neg hres] at h
            cases h
    · rw [if_neg hpm] at h
      rw [if_neg hpm]
      exact ih _ _ _ _ _ _ h

/-- If the replay refutes the candidates before position `i` and the
candidate at `i` is playable with a refuted (False) recursive call, the
loop returns that candidate's `winReturn` — nothing after position `i` is
examined. -/
theorem step_of_provesAt (S : BoardSpec) (fuel : Nat) :
    ∀ i ms b wm tt bi wmi tti m o2,
      refutedUpTo S fuel b wm tt (ms.take i) = some (bi, wmi, tti) →
      ms.get? i = some m →
      (playMove S bi m bi.current_player).fst = true →
      boolean_negamax_tt S fuel (playMove S bi m bi.current_player).snd wmi tti =
        some (SearchRes.out o2) →
      o2.result = false →
      negamaxStep S (boolean_negamax_tt S fuel) b wm tt ms = winReturn S m bi o2 := by
  intro i
  induction i with
  | zero =>
    intro ms b wm tt bi wmi tti m o2 hru hget hpm hbnt hres
    simp only [List.take_zero, refutedUpTo] at hru
    cases hru
    cases ms with
    | nil => cases hget
    | cons m0 rest =>
      simp only [List.get?] at hget
      cases hget
      simp only [negamaxStep]
      rw [if_pos hpm, hbnt]
      simp [hres]
  | succ i ih =>
    intro ms b wm tt bi wmi tti m o2 hru hget hpm hbnt hres
    cases ms with
    | nil => cases hget
    | cons m0 rest =>
      simp only [List.get?] at hget
      simp only [List.take_succ_cons, refutedUpTo] at hru
      simp only [negamaxStep]
      by_cases hpm0 : (playMove S b m0 b.current_player).fst = true
      · rw [if_pos hpm0] at hru
        rw [if_pos hpm0]
        cases hr : boolean_negamax_tt S fuel (playMove S b m0 b.current_player).snd wm tt with
        | none => rw [hr] at hru; cases hru
        | some r =>
          cases r with
          | exn => rw [hr] at hru; cases hru
          | out o1 =>
            rw [hr] at hru
            simp only at hru
            by_cases hres1 : o1.result = true
            · rw [if_pos hres1] at hru
              simp only [hres1, if_true]
              exact ih rest _ _ _ _ _ _ _ _ hru hget hpm hbnt hres
            · rw [if_neg hres1] at hru
              cases hru
      · rw [if_neg hpm0] at hru
        rw [if_neg hpm0]
        exact ih rest _ _ _ _ _ _ _ _ hru hget hpm hbnt hres

/-- Inversion of a winning loop exit: the loop returned True, so some
position `i` carries the first playable refuted candidate, everything
before it was refuted, and the output is that candidate's `winReturn`. -/
theorem step_win_inv (S : BoardSpec) (fuel : Nat) :
    ∀ ms b wm tt o,
      negamaxStep S (boolean_negamax_tt S fuel) b wm tt ms = some (SearchRes.out o) →
      o.result = true →
      ∃ i m bi wmi tti o2,
        refutedUpTo S fuel b wm tt (ms.take i) = some (bi, wmi, tti) ∧
        ms.get? i = some m ∧
        (playMove S bi m bi.current_player).fst = true ∧
        boolean_negamax_tt S fuel (playMove S bi m bi.current_player).snd wmi tti =
          some (SearchRes.out o2) ∧
        o2.result = false ∧
        winReturn S m bi o2 = some (SearchRes.out o) := by
  intro ms
  induction ms with
  | nil =>
    intro b wm tt o h hres
    simp only [negamaxStep] at h
    cases h
    cases hres
  | cons m0 rest ih =>
    intro b wm tt o h hres
    simp only [negamaxStep] at h
    by_cases hpm0 : (playMove S b m0 b.current_player).fst = true
    · rw [if_pos hpm0] at h
      cases hr : boolean_negamax_tt S fuel (playMove S b m0 b.current_player).snd wm tt with
      | none => rw [hr] at h; cases h
      | some r =>
        cases r with
        | exn => rw [hr] at h; cases h
        | out o1 =>
          rw [hr] at h
          simp only at h
          by_cases hres1 : o1.result = true
          · rw [if_pos hres1] at h
            obtain ⟨i, m, bi, wmi, tti, o2, hru, hget, hpm, hbnt, hr2, hwr⟩ :=
              ih _ _ _ _ h hres
            refine ⟨i + 1, m, bi, wmi, tti, o2, ?_, hget, hpm, hbnt, hr2, hwr⟩
            simp only [List.take_succ_cons, refutedUpTo]
            rw [if_pos hpm0, hr]
            simp only [hres1, if_true]
            exact hru
          · rw [if_neg hres1] at h
            refine ⟨0, m0, b, wm, tt, o1, ?_, rfl, hpm0, hr, ?_, h⟩
            · simp [refutedUpTo]
            · simp at hres1; exact hres1
    · rw [if_neg hpm0] at h
      obtain ⟨i, m, bi, wmi, tti, o2, hru, hget, hpm, hbnt, hr2, hwr⟩ := ih _ _ _ _ h hres
      refine ⟨i + 1, m, bi, wmi, tti, o2, ?_, hget, hpm, hbnt, hr2, hwr⟩
      simp only [List.take_succ_cons, refutedUpTo]
      rw [if_neg hpm0]
      exact hru

/-- Inversion of a fall-through loop exit: the loop returned False, so the
replay refuted every candidate and the output stores False at the threaded
final state. -/
theorem step_false_inv (S : BoardSpec) (fuel : Nat) :
    ∀ ms b wm tt o,
      negamaxStep S (boolean_negamax_tt S fuel) b wm tt ms = some (SearchRes.out o) →
      o.result = false →
      ∃ bf wmf ttf,
        refutedUpTo S fuel b wm tt ms = some (bf, wmf, ttf) ∧
        o = { result := false, board := bf, trail := wmf,
              table := TT.store ttf (S.hashCode bf) false } := by
  intro ms
  induction ms with
  | nil =>
    intro b wm tt o h hres
    simp only [negamaxStep] at h
    cases h
    exact ⟨b, wm, tt, by simp [refutedUpTo], rfl⟩
  | cons m0 rest ih =>
    intro b wm tt o h hres
    simp only [negamaxStep] at h
    simp only [refutedUpTo]
    by_cases hpm0 : (playMove S b m0 b.current_player).fst = true
    · rw [if_pos hpm0] at h
      rw [if_pos hpm0]
      cases hr : boolean_negamax_tt S fuel (playMove S b m0 b.current_player).snd wm tt with
      | none => rw [hr] at h; cases h
      | some r =>
        cases r with
        | exn => rw [hr] at h; cases h
        | out o1 =>
          rw [hr] at h
          simp only at h
          by_cases hres1 : o1.result = true
          · rw [if_pos hres1] at h
            simp only [hres1, if_true]
            exact ih _ _ _ _ h hres
          · rw [if_neg hres1] at h
            simp only [winReturn] at h
            cases hf : format_point (point_to_coord m0
                (undoMove o1.board m0 b.last_move b.last2_move b.current_player).size) with
            | none => rw [hf] at h; cases h
            | some s =>
              rw [hf] at h
              cases h
              cases hres
    · rw [if_neg hpm0] at h
      rw [if_neg hpm0]
      exact ih _ _ _ _ h hres

theorem resultOf_eq_some (x : Option SearchRes) (v : Bool) (h : resultOf x = some v) :
    ∃ o, x = some (SearchRes.out o) ∧ o.result = v := by
  cases x with
  | none => cases h
  | some r =>
    cases r with
    | exn => cases h
    | out o => exact ⟨o, rfl, Option.some.inj h⟩

theorem winReturn_out (S : BoardSpec) (m : Nat) (bi : Board) (o2 o : SearchOut)
    (h : winReturn S m bi o2 = some (SearchRes.out o)) :
    ∃ s, format_point (point_to_coord m
          (undoMove o2.board m bi.last_move bi.last2_move bi.current_player).size) = some s ∧
      o = { result := true,
            board := undoMove o2.board m bi.last_move bi.last2_move bi.current_player,
            trail := o2.trail ++ [asciiLower s],
            table := TT.store o2.table
              (S.hashCode (undoMove o2.board m bi.last_move bi.last2_move bi.current_player))
              true } := by
  simp only [winReturn] at h
  cases hf : format_point (point_to_coord m
      (undoMove o2.board m bi.last_move bi.last2_move bi.current_player).size) with
  | none => rw [hf] at h; simp at h
  | some s =>
    rw [hf] at h
    simp only [Option.some.injEq] at h
    cases h
    exact ⟨s, rfl, rfl⟩

theorem provesAt_intro (S : BoardSpec) (fuel : Nat) (b : Board) (wm : List (List Char)) (tt : TT)
    (ms : List Nat) (i : Nat) (bi : Board) (wmi : List (List Char)) (tti : TT) (m : Nat)
    (o2 : SearchOut)
    (hru : refutedUpTo S fuel b wm tt (ms.take i) = some (bi, wmi, tti))
    (hget : ms.get? i = some m)
    (hpm : (playMove S bi m bi.current_player).fst = true)
    (hbnt : boolean_negamax_tt S fuel (playMove S bi m bi.current_player).snd wmi tti =
      some (SearchRes.out o2))
    (hres : o2.result = false) :
    provesAt S fuel b wm tt ms i = true := by
  unfold provesAt
  rw [hru, hget]
  simp [hpm, resultOf, hbnt, hres]

theorem provesAt_elim (S : BoardSpec) (fuel : Nat) (b : Board) (wm : List (List Char)) (tt : TT)
    (ms : List Nat) (i : Nat) (h : provesAt S fuel b wm tt ms i = true) :
    ∃ bi wmi tti m o2,
      refutedUpTo S fuel b wm tt (ms.take i) = some (bi, wmi, tti) ∧
      ms.get? i = some m ∧
      (playMove S bi m bi.current_player).fst = true ∧
      boolean_negamax_tt S fuel (playMove S bi m bi.current_player).snd wmi tti =
        some (SearchRes.out o2) ∧
      o2.result = false := by
  unfold provesAt at h
  cases hru : refutedUpTo S fuel b wm tt (ms.take i) with
  | none => rw [hru] at h; cases hget : ms.get? i <;> simp [hget] at h
  | some x =>
    obtain ⟨bi, wmi, tti⟩ := x
    rw [hru] at h
    cases hget : ms.get? i with
    | none => rw [hget] at h; simp at h
    | some m =>
      rw [hget] at h
      simp only [Bool.and_eq_true, beq_iff_eq] at h
      obtain ⟨o2, hbnt, hres⟩ := resultOf_eq_some _ _ h.2
      exact ⟨bi, wmi, tti, m, o2, rfl, rfl, h.1, hbnt, hres⟩

theorem provesAt_false_of_refuted (S : BoardSpec) (fuel : Nat) :
    ∀ i ms b wm tt x,
      refutedUpTo S fuel b wm tt (ms.take (i + 1)) = some x →
      provesAt S fuel b wm tt ms i = false := by
  intro i
  induction i with
  | zero =>
    intro ms b wm tt x h
    cases ms with
    | nil => simp [provesAt]
    | cons m rest =>
      simp only [List.take_succ_cons, List.take_zero, refutedUpTo] at h
      simp only [provesAt, List.take_zero, refutedUpTo, List.get?]
      by_cases hpm : (playMove S b m b.current_player).fst = true
      · rw [if_pos hpm] at h
        cases hr : boolean_negamax_tt S fuel (playMove S b m b.current_player).snd wm tt with
        | none => rw [hr] at h; cases h
        | some r =>
          cases r with
          | exn => rw [hr] at h; cases h
          | out o1 =>
            rw [hr] at h
            simp only at h
            by_cases hres1 : o1.result = true
            · simp [resultOf, hr, hres1]
            · rw [if_neg hres1] at h; cases h
      · simp [hpm]
  | succ i ih =>
    intro ms b wm tt x h
    cases ms with
    | nil => simp [provesAt]
    | cons m rest =>
      simp only [List.take_succ_cons, refutedUpTo] at h
      by_cases hpm : (playMove S b m b.current_player).fst = true
      · rw [if_pos hpm] at h
        cases hr : boolean_negamax_tt S fuel (playMove S b m b.current_player).snd wm tt with
        | none => rw [hr] at h; cases h
        | some r =>
          cases r with
          | exn => rw [hr] at h; cases h
          | out o1 =>
            rw [hr] at h
            simp only at h
            by_cases hres1 : o1.result = true
            · rw [if_pos hres1] at h
              have hgoal : provesAt S fuel b wm tt (m :: rest) (i + 1) =
                  provesAt S fuel
                    (undoMove o1.board m b.last_move b.last2_move b.current_player)
                    o1.trail o1.table rest i := by
                simp only [provesAt, List.take_succ_cons, refutedUpTo, List.get?]
                rw [if_pos hpm, hr]
                simp only [hres1, if_true]
              rw [hgoal]
              exact ih rest _ _ _ _ h
            · rw [if_neg hres1] at h; cases h
      · rw [if_neg hpm] at h
        have hgoal : provesAt S fuel b wm tt (m :: rest) (i + 1) =
            provesAt S fuel b wm tt rest i := by
          simp only [provesAt, List.take_succ_cons, refutedUpTo, List.get?]
          rw [if_neg hpm]
        rw [hgoal]
        exact ih rest _ _ _ _ h

theorem refuted_take_of_le (S : BoardSpec) (fuel : Nat) (ms : List Nat) (b : Board)
    (wm : List (List Char)) (tt : TT) (i j : Nat) (x : Board × List (List Char) × TT)
    (hji : j ≤ i) (h : refutedUpTo S fuel b wm tt (ms.take i) = some x) :
    ∃ y, refutedUpTo S fuel b wm tt (ms.take j) = some y := by
  have hsplit : ms.take i = ms.take j ++ (ms.take i).drop j := by
    conv_lhs => rw [← List.take_append_drop j (ms.take i)]
    rw [List.take_take, Nat.min_eq_left hji]
  rw [hsplit, refutedUpTo_append] at h
  cases hy : refutedUpTo S fuel b wm tt (ms.take j) with
  | none => rw [hy] at h; cases h
  | some y => exact ⟨y, rfl⟩

/-! ## Claim theorems -/

/-- Claim C2: for every call of `boolean_negamax_tt` that returns
normally, the board it was given is afterwards identical (structural
equality: every cell, `last_move`, `last2_move`, `current_player`) to its
state before the call, on every exit path — the early winning return, the
cache hit, the two terminal returns and the fall-through. -/
theorem negamax_restores_board (S : BoardSpec) (fuel : Nat) (b : Board)
    (wm : List (List Char)) (tt : TT) (o : SearchOut)
    (h : boolean_negamax_tt S fuel b wm tt = some (SearchRes.out o)) : o.board = b :=
  bnt_restores S fuel b wm tt o h

/-- Witness for C2: solving the concrete two-point position `bLoss`
returns normally and hands back exactly `bLoss`. -/
theorem negamax_restores_board_witness :
    boardOf (boolean_negamax_tt simpleSpec 3 bLoss [] []) = some bLoss := by
  cases h : boolean_negamax_tt simpleSpec 3 bLoss [] [] with
  | none => exact absurd h (by decide)
  | some r =>
    cases r with
    | exn => exact absurd h (by decide)
    | out o =>
      have hb := negamax_restores_board simpleSpec 3 bLoss [] [] o h
      simp [boardOf, hb]

/-- Claim C9: the recursive search terminates given sufficient time —
each recursive call is on a position with strictly fewer empty points, so
a fuel budget exceeding the number of empty points always suffices for
the search to complete (reach a return, or raise through the move
formatter) rather than being cut off. -/
theorem negamax_terminates (S : BoardSpec) (fuel : Nat) (b : Board)
    (wm : List (List Char)) (tt : TT) (h : emptyPoints b < fuel) :
    (boolean_negamax_tt S fuel b wm tt).isSome = true :=
  bnt_total S fuel b wm tt h

/-- Witness for C9: `bLoss` has 2 empty points and the search completes
within fuel 3. -/
theorem negamax_terminates_witness :
    (boolean_negamax_tt simpleSpec 3 bLoss [] []).isSome = true :=
  negamax_terminates simpleSpec 3 bLoss [] [] (by decide)

/-- Claim C3: on a transposition-table miss, the solver first checks the
side to move — zero legal moves stores and returns False regardless of
the opponent — and only otherwise checks the opponent in the current,
not-yet-advanced position — zero opponent moves stores and returns True.
Both returns happen with board and trail untouched, i.e. before any move
is explored. -/
theorem negamax_terminal_order (S : BoardSpec) (fuel : Nat) (b : Board)
    (wm : List (List Char)) (tt : TT)
    (hmiss : TT.lookup tt (S.hashCode b) = none) :
    (generate_legal_moves S b b.current_player = [] →
      boolean_negamax_tt S (fuel + 1) b wm tt =
        some (SearchRes.out { result := false, board := b, trail := wm,
                              table := TT.store tt (S.hashCode b) false }))
    ∧ (generate_legal_moves S b b.current_player ≠ [] →
       generate_legal_moves S b (opponent b.current_player) = [] →
      boolean_negamax_tt S (fuel + 1) b wm tt =
        some (SearchRes.out { result := true, board := b, trail := wm,
                              table := TT.store tt (S.hashCode b) true })) :=
  ⟨fun h1 => bnt_succ_loss S fuel b wm tt hmiss h1,
   fun h1 h2 => bnt_succ_win S fuel b wm tt hmiss h1 h2⟩

/-- Witness for C3: the mover-out-of-moves terminal on `bNoMoves` and the
opponent-out-of-moves terminal on `bDegen`, evaluated concretely. -/
theorem negamax_terminal_order_witness :
    boolean_negamax_tt simpleSpec 1 bNoMoves [] [] =
      some (SearchRes.out { result := false, board := bNoMoves, trail := [],
                            table := TT.store [] (simpleSpec.hashCode bNoMoves) false })
    ∧ boolean_negamax_tt degenSpec 1 bDegen [] [] =
      some (SearchRes.out { result := true, board := bDegen, trail := [],
                            table := TT.store [] (degenSpec.hashCode bDegen) true }) :=
  ⟨(negamax_terminal_order simpleSpec 0 bNoMoves [] [] (by decide)).1 (by decide),
   (negamax_terminal_order degenSpec 0 bDegen [] [] (by decide)).2 (by decide) (by decide)⟩

/-- Claim C1 (amended): in a position with no transposition-table entry
where the side to move has a legal move and the opponent also still has
one (so the degenerate opponent-out-of-moves terminal does not fire), a
normally returning `boolean_negamax_tt` returns True iff some legal
move's recursive call — at the state the loop threads to it — returns
False; when it returns True it does so at the first such proving move (no
earlier candidate proves, and the output is exactly that move's winning
return, so later siblings are never explored); if no move qualifies it
stores and returns False at the fully threaded state. -/
theorem negamax_win_iff_refuting_move (S : BoardSpec) (fuel : Nat) (b : Board)
    (wm : List (List Char)) (tt : TT) (o : SearchOut)
    (hrun : boolean_negamax_tt S (fuel + 1) b wm tt = some (SearchRes.out o))
    (hmiss : TT.lookup tt (S.hashCode b) = none)
    (hleg : generate_legal_moves S b b.current_player ≠ [])
    (hopp : generate_legal_moves S b (opponent b.current_player) ≠ []) :
    (o.result = true ↔
      ∃ i, i < (generate_legal_moves S b b.current_player).length ∧
        provesAt S fuel b wm tt (generate_legal_moves S b b.current_player) i = true)
    ∧ (o.result = true →
      ∃ i m bi wmi tti o2,
        (∀ j, j < i →
          provesAt S fuel b wm tt (generate_legal_moves S b b.current_player) j = false) ∧
        provesAt S fuel b wm tt (generate_legal_moves S b b.current_player) i = true ∧
        refutedUpTo S fuel b wm tt ((generate_legal_moves S b b.current_player).take i) =
          some (bi, wmi, tti) ∧
        (generate_legal_moves S b b.current_player).get? i = some m ∧
        (playMove S bi m bi.current_player).fst = true ∧
        boolean_negamax_tt S fuel (playMove S bi m bi.current_player).snd wmi tti =
          some (SearchRes.out o2) ∧
        o2.result = false ∧
        winReturn S m bi o2 = some (SearchRes.out o))
    ∧ (o.result = false →
      ∃ bf wmf ttf,
        refutedUpTo S fuel b wm tt (generate_legal_moves S b b.current_player) =
          some (bf, wmf, ttf) ∧
        o = { result := false, board := bf, trail := wmf,
              table := TT.store ttf (S.hashCode bf) false }) := by
  have hstep : negamaxStep S (boolean_negamax_tt S fuel) b wm tt
      (generate_legal_moves S b b.current_player) = some (SearchRes.out o) := by
    rw [← bnt_succ_loop S fuel b wm tt hmiss hleg hopp]
    exact hrun
  refine ⟨⟨?_, ?_⟩, ?_, ?_⟩
  · intro hres
    obtain ⟨i, m, bi, wmi, tti, o2, hru, hget, hpm, hbnt, hr2, _⟩ :=
      step_win_inv S fuel _ b wm tt o hstep hres
    have hlen : i < (generate_legal_moves S b b.current_player).length := by
      by_contra hc
      push_neg at hc
      rw [List.get?_eq_none.mpr hc] at hget
      cases hget
    exact ⟨i, hlen, provesAt_intro S fuel b wm tt _ i bi wmi tti m o2 hru hget hpm hbnt hr2⟩
  · rintro ⟨i, _, hp⟩
    obtain ⟨bi, wmi, tti, m, o2, hru, hget, hpm, hbnt, hr2⟩ :=
      provesAt_elim S fuel b wm tt _ i hp
    have hw := step_of_provesAt S fuel i _ b wm tt bi wmi tti m o2 hru hget hpm hbnt hr2
    rw [hw] at hstep
    obtain ⟨s, _, ho⟩ := winReturn_out S m bi o2 o hstep
    rw [ho]
  · intro hres
    obtain ⟨i, m, bi, wmi, tti, o2, hru, hget, hpm, hbnt, hr2, hwr⟩ :=
      step_win_inv S fuel _ b wm tt o hstep hres
    refine ⟨i, m, bi, wmi, tti, o2, ?_, ?_, hru, hget, hpm, hbnt, hr2, hwr⟩
    · intro j hj
      obtain ⟨y, hy⟩ := refuted_take_of_le S fuel _ b wm tt i (j + 1) _ hj hru
      exact provesAt_false_of_refuted S fuel j _ b wm tt y hy
    · exact provesAt_intro S fuel b wm tt _ i bi wmi tti m o2 hru hget hpm hbnt hr2
  · intro hres
    exact step_false_inv S fuel _ b wm tt o hstep hres

/-- Counterexample to C1 as stated: `bCex` has no table entry and the side
to move has legal moves, yet the search returns True (via the degenerate
opponent-out-of-moves terminal) although no legal move leads to a position
whose recursive call returns False. -/
theorem negamax_degenerate_win_cex :
    TT.lookup [] (cexSpec.hashCode bCex) = none
    ∧ generate_legal_moves cexSpec bCex bCex.current_player ≠ []
    ∧ resultOf (boolean_negamax_tt cexSpec 3 bCex [] []) = some true
    ∧ ∀ i, i < (generate_legal_moves cexSpec bCex bCex.current_player).length →
        provesAt cexSpec 2 bCex [] [] (generate_legal_moves cexSpec bCex bCex.current_player) i
          = false := by
  refine ⟨by decide, by decide, by decide, ?_⟩
  decide

/-- Witness for the amended C1 at a concrete winning run on `bWin`: the
first (only) legal move proves, so the search returns True. -/
theorem negamax_win_iff_witness :
    resultOf (boolean_negamax_tt simpleSpec 2 bWin [] []) = some true := by
  cases h : boolean_negamax_tt simpleSpec 2 bWin [] [] with
  | none => exact absurd h (by decide)
  | some r =>
    cases r with
    | exn => exact absurd h (by decide)
    | out o =>
      have hiff := (negamax_win_iff_refuting_move simpleSpec 1 bWin [] [] o h
        (by decide) (by decide) (by decide)).1
      have hex : ∃ i, i < (generate_legal_moves simpleSpec bWin bWin.current_player).length ∧
          provesAt simpleSpec 1 bWin [] []
            (generate_legal_moves simpleSpec bWin bWin.current_player) i = true :=
        ⟨0, by decide, by decide⟩
      simp [resultOf, hiff.mpr hex]

/-- Claim C7 (amended): per frame, the trail discipline holds — cache hits
and both terminal returns leave the trail exactly as received, a win
proved through an explored move appends exactly one element (the proving
move's text, which is then the poppable last element), and a False return
appends nothing beyond what its sub-calls threaded.  Hence the top-level
trail is non-empty, and the caller's single pop cannot underflow, whenever
the root's True comes from an explored move; the degenerate
opponent-out-of-moves root returns True with the trail untouched instead
(see the counterexample). -/
theorem negamax_trail_discipline (S : BoardSpec) (fuel : Nat) (b : Board)
    (wm : List (List Char)) (tt : TT) (o : SearchOut)
    (h : boolean_negamax_tt S (fuel + 1) b wm tt = some (SearchRes.out o)) :
    (∀ r, TT.lookup tt (S.hashCode b) = some r → o.trail = wm)
    ∧ (TT.lookup tt (S.hashCode b) = none →
        generate_legal_moves S b b.current_player = [] → o.trail = wm)
    ∧ (TT.lookup tt (S.hashCode b) = none →
        generate_legal_moves S b b.current_player ≠ [] →
        generate_legal_moves S b (opponent b.current_player) = [] → o.trail = wm)
    ∧ (TT.lookup tt (S.hashCode b) = none →
        generate_legal_moves S b b.current_player ≠ [] →
        generate_legal_moves S b (opponent b.current_player) ≠ [] →
        (o.result = true →
          ∃ pre s, o.trail = pre ++ [s] ∧ o.trail.getLast? = some s)
        ∧ (o.result = false →
          ∃ bf wmf ttf,
            refutedUpTo S fuel b wm tt (generate_legal_moves S b b.current_player) =
              some (bf, wmf, ttf) ∧
            o.trail = wmf)) := by
  refine ⟨?_, ?_, ?_, ?_⟩
  · intro r hr
    rw [bnt_succ_hit S fuel b wm tt r hr] at h
    cases h
    rfl
  · intro hmiss h1
    rw [bnt_succ_loss S fuel b wm tt hmiss h1] at h
    cases h
    rfl
  · intro hmiss h1 h2
    rw [bnt_succ_win S fuel b wm tt hmiss h1 h2] at h
    cases h
    rfl
  · intro hmiss h1 h2
    have hstep : negamaxStep S (boolean_negamax_tt S fuel) b wm tt
        (generate_legal_moves S b b.current_player) = some (SearchRes.out o) := by
      rw [← bnt_succ_loop S fuel b wm tt hmiss h1 h2]
      exact h
    constructor
    · intro hres
      obtain ⟨i, m, bi, wmi, tti, o2, _, _, _, _, _, hwr⟩ :=
        step_win_inv S fuel _ b wm tt o hstep hres
      obtain ⟨s, _, ho⟩ := winReturn_out S m bi o2 o hwr
      refine ⟨o2.trail, asciiLower s, ?_, ?_⟩
      · rw [ho]
      · rw [ho]
        exact List.getLast?_concat _
    · intro hres
      obtain ⟨bf, wmf, ttf, hru, ho⟩ := step_false_inv S fuel _ b wm tt o hstep hres
      exact ⟨bf, wmf, ttf, hru, by rw [ho]⟩

/-- Counterexample to C7 as stated: on `bDegen` the top-level search
returns True with an empty trail (the degenerate terminal appends
nothing), so the caller's pop underflows and the assertion fires. -/
theorem negamax_trail_empty_cex :
    resultOf (boolean_negamax_tt degenSpec 2 bDegen [] []) = some true
    ∧ trailOf (boolean_negamax_tt degenSpec 2 bDegen [] []) = some [] := by
  decide

/-- Witness for the amended C7: the top-level win on `bWin` leaves a
poppable trail. -/
theorem negamax_trail_discipline_witness :
    (lastTrailOf (boolean_negamax_tt simpleSpec 2 bWin [] [])).isSome = true := by
  cases h : boolean_negamax_tt simpleSpec 2 bWin [] [] with
  | none => exact absurd h (by decide)
  | some r =>
    cases r with
    | exn => exact absurd h (by decide)
    | out o =>
      have h4 := (negamax_trail_discipline simpleSpec 1 bWin [] [] o h).2.2.2
        (by decide) (by decide) (by decide)
      have hr1 : resultOf (boolean_negamax_tt simpleSpec 2 bWin [] []) = some true := by decide
      rw [h] at hr1
      have hres : o.result = true := by simpa [resultOf] using hr1
      obtain ⟨pre, s, _, hlast⟩ := h4.1 hres
      simp [lastTrailOf, hlast]

/-! ## The notation codec claims -/

theorem move_to_coord_eq_lc (s : List Char) :
    move_to_coord s 25 = move_to_coord_lc (asciiLower s) 25 := by
  simp [move_to_coord, MAXSIZE]

set_option maxHeartbeats 2000000 in
theorem roundtrip_upTo24 : ∀ r : Nat, r < 25 → ∀ c : Nat, c < 25 → 1 ≤ r → 1 ≤ c →
    (format_point (PointCoord.rc r c)).bind (fun s => move_to_coord s 25) =
      some (PointCoord.rc r c) := by decide

/-- Claim C5 (amended): the notation round-trip law holds on coordinates
`1 ≤ r, c ≤ 24` (the code rejects row or column 25, see the
counterexample): formatting then parsing on a size-25 board returns the
coordinate, and conversely every case-variant of the canonical notation
string parses back to the coordinate, whose formatting reproduces the
string up to case (strings with redundant leading zeros or signs in the
row part are parsed but not reproduced, so they fall outside the law). -/
theorem notation_roundtrip_24 (r c : Nat) (h1 : 1 ≤ r) (h2 : r ≤ 24) (h3 : 1 ≤ c)
    (h4 : c ≤ 24) :
    (format_point (PointCoord.rc r c)).bind (fun s => move_to_coord s 25) =
      some (PointCoord.rc r c)
    ∧ ∀ s t, format_point (PointCoord.rc r c) = some t → asciiLower s = asciiLower t →
        move_to_coord s 25 = some (PointCoord.rc r c) ∧
        ∃ u, format_point (PointCoord.rc r c) = some u ∧ asciiLower u = asciiLower s := by
  have hf := roundtrip_upTo24 r (by omega) c (by omega) h1 h3
  refine ⟨hf, ?_⟩
  intro s t hmt hlow
  have hmtc : move_to_coord t 25 = some (PointCoord.rc r c) := by
    rw [hmt] at hf
    simpa using hf
  refine ⟨?_, t, hmt, hlow.symm⟩
  rw [move_to_coord_eq_lc, hlow, ← move_to_coord_eq_lc]
  exact hmtc

/-- Counterexample to C5 as stated: the coordinate `(25, 25)` lies within
the claimed range `1 ≤ r, c ≤ 25`, yet formatting it fails (so no board
size can round-trip it). -/
theorem notation_roundtrip_25_cex :
    1 ≤ 25 ∧ 25 ≤ 25 ∧
    (format_point (PointCoord.rc 25 25)).bind (fun s => move_to_coord s 25) = none := by
  decide

/-- Witness for the amended C5 at `(3, 9)` (column letter `J`, past the
skipped `I`). -/
theorem notation_roundtrip_24_witness :
    (format_point (PointCoord.rc 3 9)).bind (fun s => move_to_coord s 25) =
      some (PointCoord.rc 3 9) :=
  (notation_roundtrip_24 3 9 (by decide) (by decide) (by decide) (by decide)).1

/-- Claim C6 (amended): `format_point` maps PASS to `"PASS"`, any other
coordinate with `row < 25` and `col < 25` to the column letter (from the
`I`-skipping alphabet, `col = 0` resolving to `Z` by Python's negative
indexing) concatenated with the decimal row, and fails exactly when
`row ≥ 25` or `col ≥ 25` — so the in-range coordinate `(25, 1)` of the
claimed 1..25 ceiling is rejected (see the counterexample). -/
theorem format_point_range :
    format_point PointCoord.pass = some ['P','A','S','S']
    ∧ (∀ row col : Nat, row < 25 → col < 25 →
        ∃ ch, pyNth columnLetters ((col : Int) - 1) = some ch ∧
          format_point (PointCoord.rc row col) = some (ch :: Nat.toDigits 10 row))
    ∧ (∀ row col : Nat, 25 ≤ row ∨ 25 ≤ col →
        format_point (PointCoord.rc row col) = none) := by
  refine ⟨rfl, ?_, ?_⟩
  · intro row col h1 h2
    have hch : ∀ c : Nat, c < 25 → (pyNth columnLetters ((c : Int) - 1)).isSome = true := by
      decide
    obtain ⟨ch, hch'⟩ := Option.isSome_iff_exists.mp (hch col h2)
    refine ⟨ch, hch', ?_⟩
    simp [format_point, MAXSIZE, h1, h2, hch']
  · intro row col h
    simp only [format_point, MAXSIZE]
    rw [if_neg (by omega)]

/-- Counterexample to C6 as stated: row 25 is within the claimed ceiling
of 25 yet `format_point` raises. -/
theorem format_point_25_cex :
    1 ≤ 25 ∧ 25 ≤ 25 ∧ format_point (PointCoord.rc 25 1) = none := by decide

/-- Witness for the amended C6 at `(7, 3)` and at the failing `(25, 1)`. -/
theorem format_point_range_witness :
    (∃ ch, pyNth columnLetters (((3 : Nat) : Int) - 1) = some ch ∧
      format_point (PointCoord.rc 7 3) = some (ch :: Nat.toDigits 10 7))
    ∧ format_point (PointCoord.rc 25 1) = none :=
  ⟨format_point_range.2.1 7 3 (by decide) (by decide),
   format_point_range.2.2 25 1 (Or.inl (by decide))⟩

/-! ## The solve command claims -/

/-- Claim C4 (amended): `solve` runs the search on a by-value copy of the
live board and never writes the live board back (the connection state it
returns carries the board unchanged); it responds `"unknown"` when the
countdown expires first, with the opponent's colour alone on a proven
loss, and with `"<color> <notation>"` — side-to-move colour plus the
popped winning move — on a win proved through an explored move (a win
with an empty trail, possible only via the degenerate root terminal,
crashes on the assertion instead: see the counterexample). -/
theorem solve_cmd_responses (S : BoardSpec) (fuel : Nat) (st : GtpState)
    (hcp : st.board.current_player = BLACK ∨ st.board.current_player = WHITE) :
    (∀ st2 resp mv, solve_cmd S fuel st [] = some (st2, resp, mv) → st2.board = st.board)
    ∧ (boolean_negamax_tt S fuel st.board [] [] = none →
        solve_cmd S fuel st [] = some ({ st with alarm := none }, some unknownChars, none))
    ∧ (∀ o, boolean_negamax_tt S fuel st.board [] [] = some (SearchRes.out o) →
        o.result = false →
        ∃ oc, int_to_color.getD (opponent st.board.current_player) none = some oc ∧
          solve_cmd S fuel st [] =
            some ({ st with alarm := some st.timelimit }, some oc, none))
    ∧ (∀ o pre mv, boolean_negamax_tt S fuel st.board [] [] = some (SearchRes.out o) →
        o.result = true → o.trail = pre ++ [mv] →
        ∃ c, int_to_color.getD st.board.current_player none = some c ∧
          solve_cmd S fuel st [] =
            some ({ st with alarm := some st.timelimit }, some (c ++ [' '] ++ mv),
                  some mv)) := by
  refine ⟨?_, ?_, ?_, ?_⟩
  · intro st2 resp mv h
    unfold solve_cmd at h
    cases hb : boolean_negamax_tt S fuel st.board [] [] with
    | none =>
      rw [hb] at h
      simp only [Option.some.injEq, Prod.mk.injEq] at h
      rw [← h.1]
    | some r =>
      rw [hb] at h
      cases r with
      | exn =>
        simp only [Option.some.injEq, Prod.mk.injEq] at h
        rw [← h.1]
      | out o =>
        simp only at h
        by_cases hres : o.result = true
        · rw [if_pos hres] at h
          cases hlast : o.trail.getLast? with
          | none => rw [hlast] at h; cases h
          | some mv' =>
            rw [hlast] at h
            cases hc : int_to_color.getD st.board.current_player none with
            | none => rw [hc] at h; cases h
            | some c =>
              rw [hc] at h
              simp only [Option.some.injEq, Prod.mk.injEq] at h
              rw [← h.1]
        · rw [if_neg hres] at h
          cases hc : int_to_color.getD (opponent st.board.current_player) none with
          | none => rw [hc] at h; cases h
          | some oc =>
            rw [hc] at h
            simp only [Option.some.injEq, Prod.mk.injEq] at h
            rw [← h.1]
  · intro hb
    unfold solve_cmd
    rw [hb]
    rfl
  · intro o hb hres
    have hc : int_to_color.getD (opponent st.board.current_player) none =
        some (if st.board.current_player = BLACK then ['w'] else ['b']) := by
      rcases hcp with hcp | hcp <;> rw [hcp] <;> rfl
    refine ⟨_, hc, ?_⟩
    unfold solve_cmd
    rw [hb]
    simp only [hres, if_false, hc]
    rfl
  · intro o pre mv hb hres htr
    have hlast : o.trail.getLast? = some mv := by
      rw [htr]
      exact List.getLast?_concat _
    have hc : int_to_color.getD st.board.current_player none =
        some (if st.board.current_player = BLACK then ['b'] else ['w']) := by
      rcases hcp with hcp | hcp <;> rw [hcp] <;> rfl
    refine ⟨_, hc, ?_⟩
    unfold solve_cmd
    rw [hb]
    simp only [hres, if_true, hlast, hc]
    rfl

/-- Counterexample to C4 as stated: on `stDegen` the search proves a win,
but `solve_cmd` produces no response at all — the winning-trail assertion
fails and the exception escapes (result `none`), instead of the claimed
`"<color> <notation>"` response. -/
theorem solve_cmd_degenerate_crash_cex :
    resultOf (boolean_negamax_tt degenSpec 2 stDegen.board [] []) = some true
    ∧ solve_cmd degenSpec 2 stDegen [] = none := by
  decide

/-- Witness for the amended C4: the loss run on `stLoss` responds with the
opponent's colour `"w"` and leaves the live board in place. -/
theorem solve_cmd_responses_witness :
    solve_cmd simpleSpec 3 stLoss [] =
      some ({ stLoss with alarm := some stLoss.timelimit }, some ['w'], none) := by
  cases h : boolean_negamax_tt simpleSpec 3 stLoss.board [] [] with
  | none => exact absurd h (by decide)
  | some r =>
    cases r with
    | exn => exact absurd h (by decide)
    | out o =>
      have hres : o.result = false := by
        have hr1 : resultOf (boolean_negamax_tt simpleSpec 3 stLoss.board [] []) =
            some false := by decide
        rw [h] at hr1
        simpa [resultOf] using hr1
      obtain ⟨oc, hoc, heq⟩ :=
        (solve_cmd_responses simpleSpec 3 stLoss (Or.inl (by decide))).2.2.1 o h hres
      have hw : int_to_color.getD (opponent stLoss.board.current_player) none =
          some ['w'] := by decide
      rw [hw] at hoc
      rw [heq, ← Option.some.inj hoc]

/-- Claim C8's supporting theorem: whenever `solve_cmd` returns (rather
than crashing) after a search that was not aborted by the countdown, the
SIGALRM countdown installed on entry is still armed in the resulting
state — no code path executes `signal.alarm(0)`, so the stale alarm can
still fire during later command processing. -/
theorem solve_cmd_alarm_armed (S : BoardSpec) (fuel : Nat) (st : GtpState)
    (args : List (List Char)) (res : GtpState × Option (List Char) × Option (List Char))
    (h : solve_cmd S fuel st args = some res)
    (hn : boolean_negamax_tt S fuel st.board [] [] ≠ none) :
    res.fst.alarm = some st.timelimit := by
  unfold solve_cmd at h
  cases hb : boolean_negamax_tt S fuel st.board [] [] with
  | none => exact absurd hb hn
  | some r =>
    rw [hb] at h
    cases r with
    | exn => cases h; rfl
    | out o =>
      simp only at h
      by_cases hres : o.result = true
      · rw [if_pos hres] at h
        cases hlast : o.trail.getLast? with
        | none => rw [hlast] at h; cases h
        | some mv =>
          rw [hlast] at h
          cases hc : int_to_color.getD st.board.current_player none with
          | none => rw [hc] at h; cases h
          | some c => rw [hc] at h; cases h; rfl
      · rw [if_neg hres] at h
        cases hc : int_to_color.getD (opponent st.board.current_player) none with
        | none => rw [hc] at h; cases h
        | some oc => rw [hc] at h; cases h; rfl

/-- Witness for C8: after the fast loss run on `stLoss` (timelimit 5) the
alarm register still holds the 5-second countdown. -/
theorem solve_cmd_alarm_armed_witness :
    stateAlarmOf (solve_cmd simpleSpec 3 stLoss []) = some (some 5) := by
  cases hs : solve_cmd simpleSpec 3 stLoss [] with
  | none => exact absurd hs (by decide)
  | some res =>
    have ha := solve_cmd_alarm_armed simpleSpec 3 stLoss [] res hs (by decide)
    simp [stateAlarmOf, ha, stLoss]

/-- Claim C10: the handler wrapped around the search catches every
exception, not only the SIGALRM one — an internal solver exception
(`exn`, e.g. the move formatter raising) and the timeout abort alike are
reported as the `"unknown"` response, or as a `None` return with no
response when invoked from `genmove`, and never escape to the command
dispatcher. -/
theorem solve_cmd_catches_exceptions (S : BoardSpec) (fuel : Nat) (st : GtpState) :
    (boolean_negamax_tt S fuel st.board [] [] = some SearchRes.exn →
      solve_cmd S fuel st [] =
        some ({ st with alarm := some st.timelimit }, some unknownChars, none)
      ∧ solve_cmd S fuel st [genmoveChars] =
        some ({ st with alarm := some st.timelimit }, none, none))
    ∧ (boolean_negamax_tt S fuel st.board [] [] = none →
      solve_cmd S fuel st [] = some ({ st with alarm := none }, some unknownChars, none)
      ∧ solve_cmd S fuel st [genmoveChars] = some ({ st with alarm := none }, none, none)) := by
  constructor <;> intro hb <;> constructor <;> (unfold solve_cmd; rw [hb]) <;> rfl

/-- Witness for C10: the formatter exception run on `stExn` yields the
`"unknown"` response, and no response but a `None` return in `genmove`
mode. -/
theorem solve_cmd_catches_exceptions_witness :
    solve_cmd simpleSpec 2 stExn [] =
      some ({ stExn with alarm := some stExn.timelimit }, some unknownChars, none)
    ∧ solve_cmd simpleSpec 2 stExn [genmoveChars] =
      some ({ stExn with alarm := some stExn.timelimit }, none, none) :=
  (solve_cmd_catches_exceptions simpleSpec 2 stExn).1 (by decide)
